import Mathlib

/-!
Verification development for the `no-cycle-import` lint rule repository.

Part 1 embeds the shipped rule stub (`src/unnamed/part_000`): the module
reads the process working directory at load time, and `create` branches on
`path.isAbsolute(context.getFilename())`, registering an `ImportDeclaration`
visitor that reads `node.source.value` and does nothing else.

Part 2 models the cycle-detection core that the specification describes
(resolver, dependency-graph builder, incremental cycle detector); that code
is not present in the repository, so the definitions there are modelled
from the specification text.
-/

namespace NoCycleImport

/-! ## Part 1: the shipped rule stub -/

/-- Node's posix `path.isAbsolute`: a path is absolute when it is non-empty
and starts with a slash.  This is the check used on line 36 of the stub. -/
def isAbsolute (p : String) : Bool :=
  match p.data with
  | '/' :: _ => true
  | _ => false

/-- The `source` field of an `ImportDeclaration` AST node; its `value` is
the raw module specifier string. -/
structure ImportSource where
  value : String
deriving DecidableEq, Repr

/-- An `ImportDeclaration` AST node, as consumed by the stub's visitor. -/
structure ImportDeclarationNode where
  source : ImportSource
deriving DecidableEq, Repr

/-- The part of the lint context the stub reads: `context.getFilename()`.
(`context.report` is destructured but never called.) -/
structure LintContext where
  filename : String
deriving DecidableEq, Repr

/-- The visitor object returned by `create`: the stub either registers one
`ImportDeclaration` handler or returns an empty object.  A handler returns
the specifier string it read (`const importName = node.source.value`)
together with the list of diagnostics it reported — always empty, since the
stub never calls `context.report`. -/
structure RuleVisitors where
  importDeclaration : Option (ImportDeclarationNode → String × List String)

/-- The stub's `ImportDeclaration` visitor body: it reads
`node.source.value` into `importName` and performs no further action — no
graph construction, no cycle detection, no report. -/
def importDeclarationHandler (node : ImportDeclarationNode) : String × List String :=
  let importName := node.source.value
  (importName, [])

set_option linter.unusedVariables false in
/-- The stub's `create(context)`.  The `cwd` argument models the module-level
binding `const cwd = require("process").cwd()`; like the `resolve` binding on
the previous line of the stub, it is read at load time and never used.
`create` branches only on `isAbsolute(context.getFilename())`. -/
def create (cwd : String) (context : LintContext) : RuleVisitors :=
  if isAbsolute context.filename then
    { importDeclaration := some importDeclarationHandler }
  else
    { importDeclaration := none }

/-- C1: with an absolute filename, `create` registers the
`ImportDeclaration` handler, and that handler only reads the imported module
specifier `node.source.value`; it reports no diagnostic on any node, so the
rule emits no diagnostic on any input program. -/
theorem create_absolute_handler_no_report (cwd : String) (ctx : LintContext)
    (h : isAbsolute ctx.filename = true) :
    (create cwd ctx).importDeclaration = some importDeclarationHandler ∧
    ∀ node : ImportDeclarationNode,
      importDeclarationHandler node = (node.source.value, []) := by
  refine ⟨?_, fun node => rfl⟩
  simp [create, h]

/-- Witness for C1 at the concrete context with filename `/a.js`. -/
theorem create_absolute_handler_no_report_witness :
    isAbsolute "/a.js" = true ∧
    ((create "/" { filename := "/a.js" }).importDeclaration =
        some importDeclarationHandler ∧
      ∀ node : ImportDeclarationNode,
        importDeclarationHandler node = (node.source.value, [])) :=
  ⟨rfl, create_absolute_handler_no_report "/" { filename := "/a.js" } rfl⟩

/-- C2: with a non-absolute filename, `create` returns the empty visitor
object `{}` — no handler is registered, so the rule never inspects any AST
node of that file. -/
theorem create_nonabsolute_no_visitors (cwd : String) (ctx : LintContext)
    (h : isAbsolute ctx.filename = false) :
    create cwd ctx = { importDeclaration := none } := by
  simp [create, h]

/-- Witness for C2 at the concrete relative filename `a.js`. -/
theorem create_nonabsolute_no_visitors_witness :
    isAbsolute "a.js" = false ∧
    create "/" { filename := "a.js" } = { importDeclaration := none } :=
  ⟨rfl, create_nonabsolute_no_visitors "/" { filename := "a.js" } rfl⟩

/-- C3 (counterexample): the claim that the absoluteness decision made in
`create` depends on the ambient working directory is false — there is no
pair of working-directory values on which the decision (whether a visitor is
registered) differs, because the check is `path.isAbsolute`, a pure function
of the filename string; the `cwd` binding is never consulted. -/
theorem create_decision_cwd_dependence_refuted :
    ¬ ∃ (c₁ c₂ : String) (ctx : LintContext),
      ((create c₁ ctx).importDeclaration).isSome ≠
        ((create c₂ ctx).importDeclaration).isSome := by
  rintro ⟨c₁, c₂, ctx, h⟩
  exact h rfl

/-- C3 (amended): the stub reads `require("process").cwd()` at module load,
but the absoluteness decision in `create` is `path.isAbsolute` applied to
the filename alone: for every working directory, a visitor is registered
exactly when the filename is absolute. -/
theorem create_decision_is_isAbsolute (cwd : String) (ctx : LintContext) :
    ((create cwd ctx).importDeclaration).isSome = isAbsolute ctx.filename := by
  by_cases h : isAbsolute ctx.filename <;> simp [create, h]

/-- C4: the rule's observable behaviour is independent of the process
working directory: for any two load-time working directories, `create`
returns identical visitor objects, and the handler's reported-diagnostics
output is the same (empty) on every node. -/
theorem create_independent_of_cwd (c₁ c₂ : String) (ctx : LintContext)
    (node : ImportDeclarationNode) :
    create c₁ ctx = create c₂ ctx ∧ (importDeclarationHandler node).2 = [] :=
  ⟨rfl, rfl⟩

/-! ## Part 2: the specified cycle-detection core

The repository ships no cycle-detection code; sections 3, 4 and 8 of the
specification describe the core a correct implementation must contain.  The
definitions below are modelled from that text: a `ModuleId` is a canonical
file path or an external-package marker, the `DependencyGraph` holds nodes
and deduplicated directed edges, `resolve` maps a specifier and importing
module to a `ModuleId` against an explicit file-system listing, `addImport`
grows the graph, and `checkCycle` runs the specified per-edge depth-first
reachability search from the head of the new edge back to its tail. -/

/-- Modelled from the spec: a canonical module identity — a normalized
absolute file path for local modules, or a symbolic marker for external
package modules; comparable by value equality. -/
inductive ModuleId where
  | file (path : String)
  | pkg (name : String)
deriving DecidableEq, Repr

/-- A directed dependency edge `importer → imported`, keyed by canonical
module identity (the deduplicated form used for cycle checking). -/
abbrev Edge := ModuleId × ModuleId

/-- Modelled from the spec: the dependency graph — the set of `ModuleId`
nodes discovered so far and the directed edges between them, built
incrementally and append-only within one analysis run. -/
structure Graph where
  nodes : List ModuleId
  edges : List Edge
deriving DecidableEq, Repr

/-- The fresh graph a run starts from. -/
def emptyGraph : Graph := { nodes := [], edges := [] }

/-- Modelled from the spec: `neighbors(m)` — the targets of the edges
leaving `m`, in insertion order. -/
def neighbors (es : List Edge) (m : ModuleId) : List ModuleId :=
  (es.filter (fun e => decide (e.1 = m))).map Prod.snd

/-- Insert a node if not already present (idempotent). -/
def insertNode (g : Graph) (m : ModuleId) : Graph :=
  if m ∈ g.nodes then g else { g with nodes := m :: g.nodes }

/-- Append the edge `e` unless an equal pair is already stored
(deduplication by the `(from, to)` pair). -/
def appendEdge (g : Graph) (e : Edge) : Graph :=
  if e ∈ g.edges then g else { g with edges := g.edges ++ [e] }

/-- Modelled from the spec: record an edge — both endpoints are inserted as
nodes (idempotently) and the edge is inserted deduplicated by its
`(from, to)` pair, appended after the existing edges. -/
def insertEdge (g : Graph) (e : Edge) : Graph :=
  appendEdge (insertNode (insertNode g e.1) e.2) e

/-- The consecutive steps of a node sequence, as candidate edges. -/
def steps : List ModuleId → List Edge
  | a :: b :: l => (a, b) :: steps (b :: l)
  | _ => []

/-- The last element of a node sequence, if any. -/
def lastElem : List ModuleId → Option ModuleId
  | [] => none
  | [a] => some a
  | _ :: b :: l => lastElem (b :: l)

/-- A (simple, directed) path through the edge list `es` from `a` to `b`:
a non-empty duplicate-free node sequence starting at `a`, ending at `b`,
each consecutive step an edge of `es`. -/
def IsPath (es : List Edge) (p : List ModuleId) (a b : ModuleId) : Prop :=
  p.head? = some a ∧ lastElem p = some b ∧ p.Nodup ∧ ∀ s ∈ steps p, s ∈ es

/-- A cycle among the edges `es`, following the spec's glossary: a non-empty
sequence of distinct modules where each imports the next and the last
imports the first. -/
def IsCycle (es : List Edge) (c : List ModuleId) : Prop :=
  c.Nodup ∧ (∀ s ∈ steps c, s ∈ es) ∧
  ∃ f ∈ c, ∃ t ∈ c, lastElem c = some f ∧ c.head? = some t ∧ (f, t) ∈ es

/-- First successful application of `f` along a list. -/
def firstSome (f : α → Option β) : List α → Option β
  | [] => none
  | a :: l =>
    match f a with
    | some b => some b
    | none => firstSome f l

/-- Modelled from the spec: the depth-first reachability search of the
cycle detector — starting at `cur`, look for `target`, never revisiting a
node already on the current search path (`visited`); on success return the
node sequence from `cur` to `target`.  `fuel` bounds the recursion depth;
`checkCycle` supplies more fuel than any simple path can consume. -/
def dfs (es : List Edge) (target : ModuleId) :
    Nat → List ModuleId → ModuleId → Option (List ModuleId)
  | 0, _, _ => none
  | fuel + 1, visited, cur =>
    if cur = target then some [cur]
    else if cur ∈ visited then none
    else
      match firstSome (fun nb => dfs es target fuel (cur :: visited) nb)
          (neighbors es cur) with
      | some p => some (cur :: p)
      | none => none

/-- Modelled from the spec: `checkCycle(graph, newEdge)` — upon inserting
the edge `from → to`, a self-import is reported as a degenerate one-node
cycle without entering the general search; otherwise a depth-first search
from `to` looks for `from`, and the found path, prefixed with `from`, is the
reported `CyclePath` (first element repeating as last). -/
def checkCycle (g : Graph) (e : Edge) : Option (List ModuleId) :=
  if e.1 = e.2 then some [e.1, e.1]
  else
    match dfs g.edges e.1 (g.edges.length + 2) [] e.2 with
    | some p => some (e.1 :: p)
    | none => none

/-- One run of the incremental detector over a sequence of edge insertions:
each edge is inserted and `checkCycle` is consulted immediately after that
insertion, as the spec's streaming mode prescribes. -/
def runChecks : Graph → List Edge → List (Option (List ModuleId))
  | _, [] => []
  | g, e :: rest => checkCycle (insertEdge g e) e :: runChecks (insertEdge g e) rest

/-- Modelled from the spec: the inserted edge `e` completes a cycle of
length `k` when the graph already contains a simple path of `k` nodes from
the head of `e` back to its tail — closing it with `e` yields a cycle of
`k` distinct modules. -/
def CompletesCycle (es : List Edge) (e : Edge) (k : Nat) : Prop :=
  ∃ p, IsPath es p e.2 e.1 ∧ p.length = k

/-- The spec's graph invariant: every stored edge's endpoints are present
as nodes. -/
def WellFormed (g : Graph) : Prop :=
  ∀ e ∈ g.edges, e.1 ∈ g.nodes ∧ e.2 ∈ g.nodes

/-! ### The module resolver -/

/-- Split a character list on `/` separators. -/
def splitOnSlash : List Char → List (List Char)
  | [] => [[]]
  | '/' :: rest => [] :: splitOnSlash rest
  | c :: rest =>
    match splitOnSlash rest with
    | s :: ss => (c :: s) :: ss
    | [] => [[c]]

/-- The `/`-separated segments of a path string. -/
def pathSegments (p : String) : List String :=
  (splitOnSlash p.data).map (fun cs => String.mk cs)

/-- Join path segments with `/`. -/
def joinSlash : List String → String
  | [] => ""
  | [s] => s
  | s :: rest => s ++ "/" ++ joinSlash rest

/-- The directory part of a path: everything before the last separator. -/
def dirname (p : String) : String :=
  joinSlash (pathSegments p).dropLast

/-- Collapse `.`, `..` and empty segments of a path, left to right. -/
def normalizeSegments (segs : List String) : List String :=
  segs.foldl
    (fun acc seg =>
      if seg = "." ∨ seg = "" then acc
      else if seg = ".." then acc.dropLast
      else acc ++ [seg])
    []

/-- Normalize an absolute path string: split, collapse dot segments,
rejoin under the root. -/
def normalizePath (p : String) : String :=
  "/" ++ joinSlash (normalizeSegments (pathSegments p))

/-- A specifier is relative when it starts with `./` or `../`. -/
def isRelativeSpec (s : String) : Bool :=
  match s.data with
  | '.' :: '/' :: _ => true
  | '.' :: '.' :: '/' :: _ => true
  | _ => false

/-- Modelled from the spec: the resolver's error cases — no candidate file,
malformed (empty) specifier, or ambiguous candidates. -/
inductive ResolutionError where
  | notFound
  | invalid
  | ambiguous
deriving DecidableEq, Repr

/-- Modelled from the spec: `resolve(specifier, fromModule)`.  The file
system is an explicit parameter `fs` (the list of existing files), not
ambient state.  An empty specifier is `invalid`; a relative specifier is
resolved against the directory of the importing file, probing the exact
path, then with an extension, then an index-file fallback, and fails with
`notFound` when no candidate exists; any other specifier is an external
package and resolves to its stable marker. -/
def resolve (fs : List String) (specifier : String) (fromModule : ModuleId) :
    Except ResolutionError ModuleId :=
  if specifier = "" then .error .invalid
  else if isRelativeSpec specifier then
    match fromModule with
    | .file p =>
      let cand := normalizePath (dirname p ++ "/" ++ specifier)
      if cand ∈ fs then .ok (.file cand)
      else if (cand ++ ".js") ∈ fs then .ok (.file (cand ++ ".js"))
      else if (cand ++ "/index.js") ∈ fs then .ok (.file (cand ++ "/index.js"))
      else .error .notFound
    | .pkg _ => .error .notFound
  else .ok (.pkg specifier)

/-- Provenance of one import statement: source file, position, and the raw
specifier text. -/
structure Provenance where
  file : String
  line : Nat
  col : Nat
  raw : String
deriving DecidableEq, Repr

/-- Modelled from the spec: an `ImportEdge` — the directed pair of canonical
module identities together with the provenance of the import statement. -/
structure ImportEdge where
  source : ModuleId
  target : ModuleId
  prov : Provenance
deriving DecidableEq, Repr

/-- The non-fatal diagnostics the builder signals. -/
inductive Warning where
  | unresolvedImport (specifier : String) (err : ResolutionError)
deriving DecidableEq, Repr

/-- The outcome of one `addImport` call: the (possibly grown) graph, the
recorded edge if resolution succeeded, any non-fatal warning, and the
cycle the insertion exposed, if one. -/
structure StepResult where
  graph : Graph
  edge : Option ImportEdge
  warn : Option Warning
  cycle : Option (List ModuleId)
deriving DecidableEq, Repr

/-- Modelled from the spec: `addImport(from, rawSpecifier, provenance)` —
resolve the specifier; on failure record nothing and signal a non-fatal
unresolved-import warning; on success insert both endpoints and the
deduplicated edge, then run the incremental cycle check on the new edge. -/
def addImport (fs : List String) (g : Graph) (m : ModuleId)
    (specifier : String) (prov : Provenance) : StepResult :=
  match resolve fs specifier m with
  | .error err =>
    { graph := g, edge := none
      warn := some (.unresolvedImport specifier err), cycle := none }
  | .ok target =>
    let g' := insertEdge g (m, target)
    { graph := g'
      edge := some { source := m, target := target, prov := prov }
      warn := none
      cycle := checkCycle g' (m, target) }

/-! ### Helper lemmas -/

theorem lastElem_cons (a : ModuleId) {q : List ModuleId} (h : q ≠ []) :
    lastElem (a :: q) = lastElem q := by
  cases q with
  | nil => exact absurd rfl h
  | cons b l => rfl

theorem lastElem_mem : ∀ (c : List ModuleId) {f : ModuleId},
    lastElem c = some f → f ∈ c
  | [], _, h => by simp [lastElem] at h
  | [a], f, h => by
    simp [lastElem] at h
    simp [h]
  | a :: b :: l, f, h => List.mem_cons_of_mem a (lastElem_mem (b :: l) h)

theorem head?_mem {c : List ModuleId} {t : ModuleId} (h : c.head? = some t) :
    t ∈ c := by
  cases c with
  | nil => simp at h
  | cons a l =>
    simp at h
    simp [h]

theorem steps_map_fst : ∀ p : List ModuleId, (steps p).map Prod.fst = p.dropLast
  | [] => rfl
  | [_] => rfl
  | a :: b :: l => by
    have ih := steps_map_fst (b :: l)
    show a :: (steps (b :: l)).map Prod.fst = a :: (b :: l).dropLast
    rw [ih]

theorem steps_length : ∀ p : List ModuleId, (steps p).length = p.length - 1
  | [] => rfl
  | [_] => rfl
  | a :: b :: l => by
    have ih := steps_length (b :: l)
    show (steps (b :: l)).length + 1 = (b :: l).length
    rw [ih]
    simp

theorem mem_neighbors {es : List Edge} {m x : ModuleId} :
    x ∈ neighbors es m ↔ (m, x) ∈ es := by
  simp only [neighbors, List.mem_map, List.mem_filter, decide_eq_true_eq]
  constructor
  · rintro ⟨⟨a, b⟩, ⟨hmem, heq⟩, hsnd⟩
    simp only at heq hsnd
    rw [heq, hsnd] at hmem
    exact hmem
  · intro h
    exact ⟨(m, x), ⟨h, rfl⟩, rfl⟩

theorem firstSome_eq_some {α β : Type _} {f : α → Option β} :
    ∀ {l : List α} {b : β}, firstSome f l = some b → ∃ a, a ∈ l ∧ f a = some b
  | [], b, h => by simp [firstSome] at h
  | a :: l, b, h => by
    cases hfa : f a with
    | some c =>
      refine ⟨a, List.mem_cons_self a l, ?_⟩
      simp [firstSome, hfa] at h
      rw [hfa, h]
    | none =>
      simp [firstSome, hfa] at h
      obtain ⟨a', ha', hfa'⟩ := firstSome_eq_some h
      exact ⟨a', List.mem_cons_of_mem a ha', hfa'⟩

theorem firstSome_isSome_of_mem {α β : Type _} (f : α → Option β) :
    ∀ {l : List α} {a : α} {b : β}, a ∈ l → f a = some b →
      ∃ c, firstSome f l = some c
  | [], a, _, ha, _ => absurd ha (List.not_mem_nil a)
  | x :: l, a, b, ha, hfa => by
    cases hfx : f x with
    | some c => exact ⟨c, by simp [firstSome, hfx]⟩
    | none =>
      rcases List.mem_cons.mp ha with h | h
      · rw [← h] at hfx
        rw [hfx] at hfa
        cases hfa
      · obtain ⟨c, hc⟩ := firstSome_isSome_of_mem f h hfa
        exact ⟨c, by simp [firstSome, hfx, hc]⟩

/-! ### Soundness and completeness of the reachability search -/

theorem dfs_succ (es : List Edge) (target : ModuleId) (fuel : Nat)
    (visited : List ModuleId) (cur : ModuleId) :
    dfs es target (fuel + 1) visited cur =
      if cur = target then some [cur]
      else if cur ∈ visited then none
      else
        match firstSome (fun nb => dfs es target fuel (cur :: visited) nb)
            (neighbors es cur) with
        | some p => some (cur :: p)
        | none => none := rfl

/-- Whatever the search returns is a genuine simple path from the start
node to the target, avoiding the visited list. -/
theorem dfs_sound (es : List Edge) (target : ModuleId) :
    ∀ (fuel : Nat) (visited : List ModuleId) (cur : ModuleId)
      (p : List ModuleId),
      target ∉ visited →
      dfs es target fuel visited cur = some p →
      IsPath es p cur target ∧ ∀ x ∈ p, x ∉ visited := by
  intro fuel
  induction fuel with
  | zero =>
    intro visited cur p _ h
    simp [dfs] at h
  | succ fuel ih =>
    intro visited cur p htv h
    rw [dfs_succ] at h
    by_cases hct : cur = target
    · rw [if_pos hct] at h
      obtain rfl : [cur] = p := Option.some.inj h
      refine ⟨⟨rfl, by rw [hct]; rfl, by simp, by simp [steps]⟩, ?_⟩
      intro x hx
      rw [List.mem_singleton] at hx
      rw [hx, hct]
      exact htv
    · rw [if_neg hct] at h
      by_cases hcv : cur ∈ visited
      · rw [if_pos hcv] at h
        cases h
      · rw [if_neg hcv] at h
        cases hfs : firstSome (fun nb => dfs es target fuel (cur :: visited) nb)
            (neighbors es cur) with
        | none =>
          rw [hfs] at h
          cases h
        | some q =>
          rw [hfs] at h
          obtain rfl : cur :: q = p := Option.some.inj h
          obtain ⟨nb, hnbmem, hdfs⟩ := firstSome_eq_some hfs
          have htv' : target ∉ cur :: visited := by
            rw [List.mem_cons]
            rintro (hh | hh)
            · exact hct hh.symm
            · exact htv hh
          obtain ⟨⟨hq_head, hq_last, hq_nodup, hq_steps⟩, hq_disj⟩ :=
            ih (cur :: visited) nb q htv' hdfs
          have hcur_not_q : cur ∉ q := by
            intro hcq
            exact hq_disj cur hcq (List.mem_cons_self cur visited)
          cases q with
          | nil => simp at hq_head
          | cons b q' =>
            have hb : b = nb := by simpa using hq_head
            refine ⟨⟨rfl, ?_, ?_, ?_⟩, ?_⟩
            · rw [lastElem_cons cur (by simp)]
              exact hq_last
            · exact List.nodup_cons.mpr ⟨hcur_not_q, hq_nodup⟩
            · intro s hs
              rcases List.mem_cons.mp hs with hh | hh
              · rw [hh, hb]
                exact mem_neighbors.mp hnbmem
              · exact hq_steps s hh
            · intro x hx
              rcases List.mem_cons.mp hx with hh | hh
              · rw [hh]
                exact hcv
              · intro hxv
                exact hq_disj x hh (List.mem_cons_of_mem cur hxv)

/-- If a simple path from `cur` to `target` exists, avoids the visited
list, and fits in the fuel, the search succeeds. -/
theorem dfs_complete (es : List Edge) (target : ModuleId) :
    ∀ (p : List ModuleId) (fuel : Nat) (visited : List ModuleId)
      (cur : ModuleId),
      IsPath es p cur target →
      (∀ x ∈ p, x ∉ visited) →
      p.length ≤ fuel →
      ∃ q, dfs es target fuel visited cur = some q := by
  intro p
  induction p with
  | nil =>
    intro fuel visited cur hp _ _
    obtain ⟨h, _⟩ := hp
    simp at h
  | cons a rest ih =>
    intro fuel visited cur hp hdisj hlen
    obtain ⟨hhead, hlast, hnodup, hsteps⟩ := hp
    have ha : a = cur := by simpa using hhead
    subst ha
    cases fuel with
    | zero => simp at hlen
    | succ fuel =>
      rw [dfs_succ]
      by_cases hct : a = target
      · exact ⟨[a], by rw [if_pos hct]⟩
      · rw [if_neg hct]
        have hav : a ∉ visited := hdisj a (List.mem_cons_self a rest)
        rw [if_neg hav]
        cases rest with
        | nil =>
          simp [lastElem] at hlast
          exact absurd hlast hct
        | cons b rest' =>
          have hstep : (a, b) ∈ es := hsteps (a, b) (List.mem_cons_self _ _)
          have hbnb : b ∈ neighbors es a := mem_neighbors.mpr hstep
          have hanotin : a ∉ b :: rest' := (List.nodup_cons.mp hnodup).1
          have hsub : IsPath es (b :: rest') b target := by
            refine ⟨rfl, hlast, (List.nodup_cons.mp hnodup).2, ?_⟩
            intro s hs
            exact hsteps s (List.mem_cons_of_mem (a, b) hs)
          have hdisj' : ∀ x ∈ b :: rest', x ∉ a :: visited := by
            intro x hx
            rw [List.mem_cons]
            rintro (hh | hh)
            · exact hanotin (hh ▸ hx)
            · exact hdisj x (List.mem_cons_of_mem a hx) hh
          have hlen' : (b :: rest').length ≤ fuel := by
            simp only [List.length_cons] at hlen ⊢
            omega
          obtain ⟨q', hq'⟩ := ih fuel (a :: visited) b hsub hdisj' hlen'
          obtain ⟨c, hc⟩ :=
            firstSome_isSome_of_mem
              (fun nb => dfs es target fuel (a :: visited) nb) hbnb hq'
          exact ⟨a :: c, by rw [hc]⟩

/-- A simple path whose steps all lie in `es` has at most one node more
than `es` has edges. -/
theorem path_length_le (es : List Edge) (p : List ModuleId)
    (hn : p.Nodup) (hs : ∀ s ∈ steps p, s ∈ es) :
    p.length ≤ es.length + 1 := by
  have hmapnodup : ((steps p).map Prod.fst).Nodup := by
    rw [steps_map_fst]
    exact hn.sublist (List.dropLast_sublist p)
  have hstepsnodup : (steps p).Nodup := hmapnodup.of_map
  have hsub : steps p ⊆ es := by
    intro s hss
    exact hs s hss
  have hle : (steps p).length ≤ es.length :=
    (List.subperm_of_subset hstepsnodup hsub).length_le
  have hsl := steps_length p
  omega

/-! ### Graph operation lemmas -/

theorem insertNode_edges (g : Graph) (m : ModuleId) :
    (insertNode g m).edges = g.edges := by
  unfold insertNode
  by_cases h : m ∈ g.nodes <;> simp [h]

theorem insertNode_nodes_mono (g : Graph) (m : ModuleId) :
    g.nodes ⊆ (insertNode g m).nodes := by
  unfold insertNode
  by_cases h : m ∈ g.nodes
  · rw [if_pos h]
    exact List.Subset.refl _
  · rw [if_neg h]
    exact List.subset_cons_self _ _

theorem mem_insertNode_self (g : Graph) (m : ModuleId) :
    m ∈ (insertNode g m).nodes := by
  unfold insertNode
  by_cases h : m ∈ g.nodes
  · rw [if_pos h]
    exact h
  · rw [if_neg h]
    exact List.mem_cons_self m g.nodes

theorem appendEdge_nodes (g : Graph) (e : Edge) :
    (appendEdge g e).nodes = g.nodes := by
  unfold appendEdge
  by_cases h : e ∈ g.edges <;> simp [h]

theorem appendEdge_edges_sub (g : Graph) (e : Edge) :
    ∀ x ∈ (appendEdge g e).edges, x ∈ g.edges ∨ x = e := by
  intro x hx
  unfold appendEdge at hx
  by_cases h : e ∈ g.edges
  · rw [if_pos h] at hx
    exact Or.inl hx
  · rw [if_neg h] at hx
    simp only [List.mem_append, List.mem_singleton] at hx
    exact hx

theorem appendEdge_edges_mono (g : Graph) (e : Edge) :
    g.edges ⊆ (appendEdge g e).edges := by
  unfold appendEdge
  by_cases h : e ∈ g.edges
  · rw [if_pos h]
    exact List.Subset.refl _
  · rw [if_neg h]
    exact List.subset_append_left _ _

theorem mem_appendEdge_self (g : Graph) (e : Edge) :
    e ∈ (appendEdge g e).edges := by
  unfold appendEdge
  by_cases h : e ∈ g.edges
  · rw [if_pos h]
    exact h
  · rw [if_neg h]
    simp

theorem insertEdge_nodes_mono (g : Graph) (e : Edge) :
    g.nodes ⊆ (insertEdge g e).nodes := by
  unfold insertEdge
  rw [appendEdge_nodes]
  intro x hx
  exact insertNode_nodes_mono _ e.2 (insertNode_nodes_mono g e.1 hx)

theorem insertEdge_mem_fst (g : Graph) (e : Edge) :
    e.1 ∈ (insertEdge g e).nodes := by
  unfold insertEdge
  rw [appendEdge_nodes]
  exact insertNode_nodes_mono _ e.2 (mem_insertNode_self g e.1)

theorem insertEdge_mem_snd (g : Graph) (e : Edge) :
    e.2 ∈ (insertEdge g e).nodes := by
  unfold insertEdge
  rw [appendEdge_nodes]
  exact mem_insertNode_self _ e.2

theorem insertEdge_edges_mono (g : Graph) (e : Edge) :
    g.edges ⊆ (insertEdge g e).edges := by
  unfold insertEdge
  intro x hx
  apply appendEdge_edges_mono
  rw [insertNode_edges, insertNode_edges]
  exact hx

theorem insertEdge_edges_sub (g : Graph) (e : Edge) :
    ∀ x ∈ (insertEdge g e).edges, x ∈ g.edges ∨ x = e := by
  intro x hx
  unfold insertEdge at hx
  have := appendEdge_edges_sub _ e x hx
  rw [insertNode_edges, insertNode_edges] at this
  exact this

theorem mem_insertEdge_self (g : Graph) (e : Edge) :
    e ∈ (insertEdge g e).edges :=
  mem_appendEdge_self _ e

theorem wellFormed_insertEdge (g : Graph) (e : Edge) (h : WellFormed g) :
    WellFormed (insertEdge g e) := by
  intro x hx
  rcases insertEdge_edges_sub g e x hx with hh | hh
  · obtain ⟨h1, h2⟩ := h x hh
    exact ⟨insertEdge_nodes_mono g e h1, insertEdge_nodes_mono g e h2⟩
  · rw [hh]
    exact ⟨insertEdge_mem_fst g e, insertEdge_mem_snd g e⟩

/-! ### Cycle detector: soundness bridge -/

/-- When the detector reports a path, a genuine cycle exists among any edge
list containing the searched graph's edges and the new edge. -/
theorem checkCycle_some_cycle (g : Graph) (f t : ModuleId) (cp : List ModuleId)
    (esAll : List Edge)
    (h : checkCycle g (f, t) = some cp)
    (hsub : g.edges ⊆ esAll) (he : (f, t) ∈ esAll) :
    ∃ c, IsCycle esAll c := by
  by_cases hself : f = t
  · subst hself
    refine ⟨[f], by simp, ?_, f, List.mem_singleton_self f, f,
      List.mem_singleton_self f, rfl, rfl, he⟩
    intro s hs
    exact absurd hs (List.not_mem_nil s)
  · unfold checkCycle at h
    dsimp only at h
    rw [if_neg hself] at h
    cases hdfs : dfs g.edges f (g.edges.length + 2) [] t with
    | none =>
      rw [hdfs] at h
      cases h
    | some p =>
      obtain ⟨⟨hp_head, hp_last, hp_nodup, hp_steps⟩, -⟩ :=
        dfs_sound g.edges f (g.edges.length + 2) [] t p (List.not_mem_nil f) hdfs
      refine ⟨p, hp_nodup, ?_, f, lastElem_mem p hp_last, t, head?_mem hp_head,
        hp_last, hp_head, he⟩
      intro s hs
      exact hsub (hp_steps s hs)

/-- Auxiliary invariant for the incremental run: every check comes back
empty as long as all edges ever inserted lie in an acyclic ambient set. -/
theorem runChecks_none_aux (esAll : List Edge)
    (hacyc : ∀ c, ¬ IsCycle esAll c) :
    ∀ (seq : List Edge) (g : Graph), g.edges ⊆ esAll →
      (∀ e ∈ seq, e ∈ esAll) → ∀ r ∈ runChecks g seq, r = none := by
  intro seq
  induction seq with
  | nil =>
    intro g _ _ r hr
    simp [runChecks] at hr
  | cons e rest ih =>
    intro g hg hseq r hr
    have he : e ∈ esAll := hseq e (List.mem_cons_self e rest)
    have hg' : (insertEdge g e).edges ⊆ esAll := by
      intro x hx
      rcases insertEdge_edges_sub g e x hx with hh | hh
      · exact hg hh
      · rw [hh]
        exact he
    simp only [runChecks] at hr
    rcases List.mem_cons.mp hr with h1 | h1
    · rw [h1]
      cases hcc : checkCycle (insertEdge g e) e with
      | none => rfl
      | some cp =>
        exfalso
        obtain ⟨c, hc⟩ :=
          checkCycle_some_cycle (insertEdge g e) e.1 e.2 cp esAll hcc hg' he
        exact hacyc c hc
    · exact ih (insertEdge g e) hg' (fun x hx => hseq x (List.mem_cons_of_mem e hx)) r h1

/-- C5: for every sequence of edge insertions with no cycle among the
inserted edges, `checkCycle` returns none after every single insertion. -/
theorem checkCycle_none_of_acyclic (es : List Edge)
    (hacyc : ∀ c, ¬ IsCycle es c) :
    ∀ r ∈ runChecks emptyGraph es, r = none := by
  apply runChecks_none_aux es hacyc es emptyGraph
  · intro x hx
    exact absurd hx (List.not_mem_nil x)
  · intro e he
    exact he

/-- Every node of a cycle is the last node or has an outgoing step. -/
theorem mem_last_or_step : ∀ (c : List ModuleId) (f x : ModuleId),
    lastElem c = some f → x ∈ c →
    x = f ∨ ∃ y, y ∈ c ∧ (x, y) ∈ steps c
  | [], _, x, _, hx => absurd hx (List.not_mem_nil x)
  | [a], f, x, hl, hx => by
    left
    have haf : a = f := by simpa [lastElem] using hl
    have hxa : x = a := by simpa using hx
    rw [hxa, haf]
  | a :: b :: l, f, x, hl, hx => by
    rcases List.mem_cons.mp hx with h | h
    · right
      refine ⟨b, List.mem_cons_of_mem a (List.mem_cons_self b l), ?_⟩
      rw [h]
      exact List.mem_cons_self (a, b) (steps (b :: l))
    · rcases mem_last_or_step (b :: l) f x hl h with h1 | ⟨y, hy, hys⟩
      · exact Or.inl h1
      · exact Or.inr ⟨y, List.mem_cons_of_mem a hy, List.mem_cons_of_mem (a, b) hys⟩

/-- Every node of a cycle has a successor inside the cycle. -/
theorem cycle_mem_successor (es : List Edge) (c : List ModuleId)
    (hc : IsCycle es c) : ∀ x ∈ c, ∃ y, y ∈ c ∧ (x, y) ∈ es := by
  obtain ⟨hnodup, hsteps, f, hf, t, ht, hlast, hhead, hedge⟩ := hc
  intro x hx
  rcases mem_last_or_step c f x hlast hx with h | ⟨y, hy, hys⟩
  · refine ⟨t, ht, ?_⟩
    rw [h]
    exact hedge
  · exact ⟨y, hy, hsteps (x, y) hys⟩

/-- The single-edge set `A → B` is acyclic. -/
theorem single_edge_acyclic :
    ∀ c, ¬ IsCycle [(ModuleId.file "A", ModuleId.file "B")] c := by
  intro c hc
  obtain ⟨t, ht⟩ : ∃ t, t ∈ c := by
    obtain ⟨-, -, f, -, t, ht, -⟩ := hc
    exact ⟨t, ht⟩
  obtain ⟨y, hy, hxy⟩ := cycle_mem_successor _ c hc t ht
  rw [List.mem_singleton] at hxy
  injection hxy with ht1 hyB
  obtain ⟨z, -, hyz⟩ := cycle_mem_successor _ c hc y hy
  rw [List.mem_singleton] at hyz
  injection hyz with hyA hz1
  rw [hyB] at hyA
  exact absurd hyA (by decide)

/-- Witness for C5: inserting the single edge `A → B` (an acyclic
sequence) produces an empty check after the insertion. -/
theorem checkCycle_none_of_acyclic_witness :
    (∀ c, ¬ IsCycle [(ModuleId.file "A", ModuleId.file "B")] c) ∧
    ∀ r ∈ runChecks emptyGraph [(ModuleId.file "A", ModuleId.file "B")],
      r = none :=
  ⟨single_edge_acyclic,
    checkCycle_none_of_acyclic [(ModuleId.file "A", ModuleId.file "B")]
      single_edge_acyclic⟩

instance (es : List Edge) (p : List ModuleId) (a b : ModuleId) :
    Decidable (IsPath es p a b) := by
  unfold IsPath
  exact inferInstance

/-- C6 (counterexample): in the graph already holding `B → A`, `B → C` and
`C → A`, inserting `A → B` completes a cycle of length 3 (through `C`),
yet `checkCycle` returns the cycle path `[A, B, A]` of 2 distinct nodes — a
path of 3 elements, not the 3 + 1 elements the claim requires for k = 3. -/
theorem checkCycle_exact_length_refuted :
    CompletesCycle
      [(ModuleId.file "B", ModuleId.file "A"), (ModuleId.file "B", ModuleId.file "C"),
        (ModuleId.file "C", ModuleId.file "A"), (ModuleId.file "A", ModuleId.file "B")]
      (ModuleId.file "A", ModuleId.file "B") 3 ∧
    ¬ ∃ cp,
      checkCycle
        { nodes := [ModuleId.file "A", ModuleId.file "B", ModuleId.file "C"]
          edges := [(ModuleId.file "B", ModuleId.file "A"),
            (ModuleId.file "B", ModuleId.file "C"),
            (ModuleId.file "C", ModuleId.file "A"),
            (ModuleId.file "A", ModuleId.file "B")] }
        (ModuleId.file "A", ModuleId.file "B") = some cp ∧
      cp.length = 3 + 1 := by
  constructor
  · exact ⟨[ModuleId.file "B", ModuleId.file "C", ModuleId.file "A"],
      by decide, rfl⟩
  · rintro ⟨cp, hcp, hlen⟩
    have hval :
        checkCycle
          { nodes := [ModuleId.file "A", ModuleId.file "B", ModuleId.file "C"]
            edges := [(ModuleId.file "B", ModuleId.file "A"),
              (ModuleId.file "B", ModuleId.file "C"),
              (ModuleId.file "C", ModuleId.file "A"),
              (ModuleId.file "A", ModuleId.file "B")] }
          (ModuleId.file "A", ModuleId.file "B") =
        some [ModuleId.file "A", ModuleId.file "B", ModuleId.file "A"] := by
      decide
    rw [hval] at hcp
    obtain rfl := Option.some.inj hcp
    simp at hlen

/-- C6 (amended): when the inserted edge completes a cycle, `checkCycle`
returns a cycle path whose first and last elements are the tail of the new
edge, and whose element count is `kr + 1` for some `kr ≥ 1` that is the
length of a cycle the edge completes (not necessarily every such length). -/
theorem checkCycle_completed_cycle (g : Graph) (e : Edge) (k : Nat)
    (h : CompletesCycle g.edges e k) :
    ∃ cp kr, checkCycle g e = some cp ∧ cp.head? = some e.1 ∧
      lastElem cp = some e.1 ∧ cp.length = kr + 1 ∧ 1 ≤ kr ∧
      CompletesCycle g.edges e kr := by
  obtain ⟨p, hp, hplen⟩ := h
  by_cases hself : e.1 = e.2
  · refine ⟨[e.1, e.1], 1, ?_, rfl, rfl, rfl, le_refl 1, ?_⟩
    · unfold checkCycle
      rw [if_pos hself]
    · refine ⟨[e.2], ⟨rfl, by rw [hself]; rfl, by simp, ?_⟩, rfl⟩
      intro s hs
      exact absurd hs (List.not_mem_nil s)
  · have hfuel : p.length ≤ g.edges.length + 2 := by
      have := path_length_le g.edges p hp.2.2.1 hp.2.2.2
      omega
    have hdisj : ∀ x ∈ p, x ∉ ([] : List ModuleId) := by
      intro x _ hx
      exact List.not_mem_nil x hx
    obtain ⟨q, hq⟩ :=
      dfs_complete g.edges e.1 p (g.edges.length + 2) [] e.2 hp hdisj hfuel
    obtain ⟨⟨hq_head, hq_last, hq_nodup, hq_steps⟩, -⟩ :=
      dfs_sound g.edges e.1 (g.edges.length + 2) [] e.2 q
        (List.not_mem_nil e.1) hq
    have hqne : q ≠ [] := by
      intro hh
      rw [hh] at hq_head
      simp at hq_head
    refine ⟨e.1 :: q, q.length, ?_, rfl, ?_, by simp, ?_,
      ⟨q, ⟨hq_head, hq_last, hq_nodup, hq_steps⟩, rfl⟩⟩
    · unfold checkCycle
      rw [if_neg hself, hq]
    · rw [lastElem_cons e.1 hqne]
      exact hq_last
    · cases q with
      | nil => exact absurd rfl hqne
      | cons _ _ => simp

/-- Witness for C6 (amended): inserting `A → B` into a graph already
holding `B → A` completes the two-node cycle, and `checkCycle` reports it. -/
theorem checkCycle_completed_cycle_witness :
    CompletesCycle [(ModuleId.file "A", ModuleId.file "B"),
        (ModuleId.file "B", ModuleId.file "A")]
      (ModuleId.file "A", ModuleId.file "B") 2 ∧
    ∃ cp kr,
      checkCycle
        { nodes := [ModuleId.file "A", ModuleId.file "B"]
          edges := [(ModuleId.file "A", ModuleId.file "B"),
            (ModuleId.file "B", ModuleId.file "A")] }
        (ModuleId.file "A", ModuleId.file "B") = some cp ∧
      cp.head? = some (ModuleId.file "A") ∧
      lastElem cp = some (ModuleId.file "A") ∧
      cp.length = kr + 1 ∧ 1 ≤ kr ∧
      CompletesCycle [(ModuleId.file "A", ModuleId.file "B"),
          (ModuleId.file "B", ModuleId.file "A")]
        (ModuleId.file "A", ModuleId.file "B") kr :=
  ⟨⟨[ModuleId.file "B", ModuleId.file "A"], by decide, rfl⟩,
    checkCycle_completed_cycle
      { nodes := [ModuleId.file "A", ModuleId.file "B"]
        edges := [(ModuleId.file "A", ModuleId.file "B"),
          (ModuleId.file "B", ModuleId.file "A")] }
      (ModuleId.file "A", ModuleId.file "B") 2
      ⟨[ModuleId.file "B", ModuleId.file "A"], by decide, rfl⟩⟩

/-- C7: inserting a self-edge `(A, A)` makes `checkCycle` return the
one-node cycle `[A, A]` immediately, whatever the graph holds — the result
is the same for any two graph histories, without the general search. -/
theorem checkCycle_self_import (g g' : Graph) (a : ModuleId) :
    checkCycle g (a, a) = some [a, a] ∧
    checkCycle g (a, a) = checkCycle g' (a, a) := by
  constructor
  · unfold checkCycle
    rw [if_pos rfl]
  · unfold checkCycle
    rw [if_pos rfl, if_pos rfl]

/-! ### Resolver and builder claims -/

/-- C8: resolution is deterministic and idempotent in its arguments — the
resolver is a pure function of the file system, the specifier and the
importing module, so two calls within the same run agree, and in
particular the resolution-dependent outputs of `addImport` do not depend
on the graph state the run has reached. -/
theorem resolve_deterministic (fs : List String) (s : String) (m : ModuleId)
    (g₁ g₂ : Graph) (pr : Provenance) :
    resolve fs s m = resolve fs s m ∧
    (addImport fs g₁ m s pr).edge = (addImport fs g₂ m s pr).edge ∧
    (addImport fs g₁ m s pr).warn = (addImport fs g₂ m s pr).warn := by
  refine ⟨rfl, ?_, ?_⟩ <;>
    · unfold addImport
      cases resolve fs s m <;> rfl

/-- C9: an `addImport` whose specifier fails to resolve with `notFound`
leaves the graph unchanged, signals a non-fatal unresolved-import warning,
records no edge, and reports no cycle. -/
theorem addImport_unresolved (fs : List String) (g : Graph) (m : ModuleId)
    (s : String) (pr : Provenance)
    (h : resolve fs s m = Except.error ResolutionError.notFound) :
    (addImport fs g m s pr).graph = g ∧
    (addImport fs g m s pr).warn =
      some (Warning.unresolvedImport s ResolutionError.notFound) ∧
    (addImport fs g m s pr).cycle = none ∧
    (addImport fs g m s pr).edge = none := by
  unfold addImport
  rw [h]
  exact ⟨rfl, rfl, rfl, rfl⟩

/-- Witness for C9: `/A.js` imports `./missing` over an empty file system —
the specifier does not resolve and nothing is recorded. -/
theorem addImport_unresolved_witness :
    resolve [] "./missing" (ModuleId.file "/A.js") =
      Except.error ResolutionError.notFound ∧
    ((addImport [] emptyGraph (ModuleId.file "/A.js") "./missing"
        { file := "/A.js", line := 1, col := 0, raw := "./missing" }).graph =
        emptyGraph ∧
      (addImport [] emptyGraph (ModuleId.file "/A.js") "./missing"
        { file := "/A.js", line := 1, col := 0, raw := "./missing" }).warn =
        some (Warning.unresolvedImport "./missing" ResolutionError.notFound) ∧
      (addImport [] emptyGraph (ModuleId.file "/A.js") "./missing"
        { file := "/A.js", line := 1, col := 0, raw := "./missing" }).cycle =
        none ∧
      (addImport [] emptyGraph (ModuleId.file "/A.js") "./missing"
        { file := "/A.js", line := 1, col := 0, raw := "./missing" }).edge =
        none) :=
  ⟨rfl, addImport_unresolved [] emptyGraph (ModuleId.file "/A.js") "./missing"
    { file := "/A.js", line := 1, col := 0, raw := "./missing" } rfl⟩

/-- C10: the graph operations preserve the invariant that every stored
edge's endpoints are present as nodes, and within a run the node and edge
sets only grow — `insertEdge` and `addImport` never remove an entry. -/
theorem graph_ops_preserve_invariants (fs : List String) (g : Graph)
    (m : ModuleId) (s : String) (pr : Provenance) (e : Edge)
    (h : WellFormed g) :
    (WellFormed (insertEdge g e) ∧ g.nodes ⊆ (insertEdge g e).nodes ∧
      g.edges ⊆ (insertEdge g e).edges) ∧
    (WellFormed (addImport fs g m s pr).graph ∧
      g.nodes ⊆ (addImport fs g m s pr).graph.nodes ∧
      g.edges ⊆ (addImport fs g m s pr).graph.edges) := by
  refine ⟨⟨wellFormed_insertEdge g e h, insertEdge_nodes_mono g e,
    insertEdge_edges_mono g e⟩, ?_⟩
  unfold addImport
  cases resolve fs s m with
  | error err => exact ⟨h, List.Subset.refl _, List.Subset.refl _⟩
  | ok target =>
    exact ⟨wellFormed_insertEdge g (m, target) h,
      insertEdge_nodes_mono g (m, target), insertEdge_edges_mono g (m, target)⟩

/-- Witness for C10 starting from the well-formed empty graph. -/
theorem graph_ops_preserve_invariants_witness :
    WellFormed emptyGraph ∧
    ((WellFormed (insertEdge emptyGraph (ModuleId.file "A", ModuleId.file "B")) ∧
      emptyGraph.nodes ⊆
        (insertEdge emptyGraph (ModuleId.file "A", ModuleId.file "B")).nodes ∧
      emptyGraph.edges ⊆
        (insertEdge emptyGraph (ModuleId.file "A", ModuleId.file "B")).edges) ∧
    (WellFormed
        (addImport [] emptyGraph (ModuleId.file "/A.js") "./b"
          { file := "/A.js", line := 1, col := 0, raw := "./b" }).graph ∧
      emptyGraph.nodes ⊆
        (addImport [] emptyGraph (ModuleId.file "/A.js") "./b"
          { file := "/A.js", line := 1, col := 0, raw := "./b" }).graph.nodes ∧
      emptyGraph.edges ⊆
        (addImport [] emptyGraph (ModuleId.file "/A.js") "./b"
          { file := "/A.js", line := 1, col := 0, raw := "./b" }).graph.edges)) :=
  ⟨fun x hx => absurd hx (List.not_mem_nil x),
    graph_ops_preserve_invariants [] emptyGraph (ModuleId.file "/A.js") "./b"
      { file := "/A.js", line := 1, col := 0, raw := "./b" }
      (ModuleId.file "A", ModuleId.file "B")
      (fun x hx => absurd hx (List.not_mem_nil x))⟩

end NoCycleImport
